import Mathlib

/-!
# Round-off versus truncation error in a forward-difference derivative

A verification development for `roundoff.cpp`.  The program is written against
one type alias `fptype` (set to `double`, with `float` and `long double` as
commented alternatives).  The embedding below follows that structure:

* `FpType α` lists the operations the program applies to `fptype` values;
* `myf`, `myfp`, `numder` and the loop of `main` are translated once, over any
  `FpType α`;
* `F64` instantiates `fptype = double` with IEEE 754 binary64 arithmetic
  (round to nearest, ties to even, signed zeros, infinities, NaN);
* every linearly ordered field (`ℚ`, `ℝ`) instantiates exact arithmetic.

Conventions of the binary64 instance:

* every `+ - * /` is rounded once to binary64 (no extended intermediate
  precision, no fused multiply-add);
* division by zero and invalid operations return an infinity or NaN and do not
  trap, the default of IEEE 754 environments;
* `abs` on an `fptype` argument is the floating overload of `std::abs`;
* literals carry the suffix `l`: they are rounded to the x87 extended format
  and then to binary64;
* output to `cout` is kept as the record `Printed`; the histogram is kept as
  the sequence of `Fill(i, w)` calls (80 unit-width bins centred on 1, ..., 80,
  so the call with first argument `i` lands in bin `i`).
-/

namespace RoundOff

/-! ## The operations used on `fptype` -/

/-- Operations that `roundoff.cpp` applies to values of its type `fptype`. -/
class FpType (α : Type) where
  /-- Binary `+`. -/
  add : α → α → α
  /-- Binary `-`. -/
  sub : α → α → α
  /-- Binary `*`. -/
  mul : α → α → α
  /-- Binary `/`. -/
  div : α → α → α
  /-- Floating `abs` as selected by overload resolution for an `fptype` argument. -/
  fabs : α → α
  /-- Conversion of a literal with suffix `l` (a `long double` constant) to `fptype`. -/
  ofLongDouble : ℚ → α
  /-- The cast `float(v)`, read back at the width expected by `TH1::Fill`. -/
  toFloat : α → α

open FpType

/-! ## IEEE 754 binary formats -/

/-- Parameters of a binary floating-point format: `prec` significand bits, least
exponent `emin` of a unit in the last place, and overflow threshold `2 ^ emax`. -/
structure FloatFormat where
  prec : Nat
  emin : Int
  emax : Int
deriving DecidableEq, Repr

/-- IEEE 754 binary32, the C++ `float`. -/
def binary32 : FloatFormat := ⟨24, -149, 128⟩

/-- IEEE 754 binary64, the C++ `double`. -/
def binary64 : FloatFormat := ⟨53, -1074, 1024⟩

/-- The x87 80-bit extended format, `long double` on x86 Linux. -/
def x87ext : FloatFormat := ⟨64, -16445, 16384⟩

/-- The rational `2 ^ e` for an integer exponent. -/
def pow2 (e : Int) : ℚ :=
  if 0 ≤ e then ((2 ^ e.toNat : Nat) : ℚ) else 1 / ((2 ^ (-e).toNat : Nat) : ℚ)

/-- Binary logarithm of a natural number by repeated halving, at most `fuel` times. -/
def log2Fuel : Nat → Nat → Nat
  | 0, _ => 0
  | fuel + 1, n => if n < 2 then 0 else log2Fuel fuel (n / 2) + 1

/-- The floor of the binary logarithm of `n` (`0` at `n = 0`); it agrees with
`Nat.log2`, see `natLog2_eq`. -/
def natLog2 (n : Nat) : Nat := log2Fuel n n

/-- For positive `q`, the integer `e` with `2 ^ e ≤ q < 2 ^ (e + 1)`. -/
def ilog2 (q : ℚ) : Int :=
  let e0 : Int := (natLog2 q.num.natAbs : Int) - (natLog2 q.den : Int)
  if pow2 e0 ≤ q then e0 else e0 - 1

/-- Round a non-negative rational to the nearest multiple of the unit in the last
place of format `f`, ties to even; the exponent is unbounded above. -/
def roundMag (f : FloatFormat) (q : ℚ) : ℚ :=
  let e : Int := max (ilog2 q - ((f.prec : Int) - 1)) f.emin
  let t : ℚ := q / pow2 e
  let n : Int := ⌊t⌋
  let r : ℚ := t - n
  let m : Int :=
    if r < 1 / 2 then n
    else if 1 / 2 < r then n + 1
    else if n % 2 = 0 then n else n + 1
  (m : ℚ) * pow2 e

/-- A floating-point datum: NaN, a signed infinity, or a signed finite magnitude
(signed zeros are `fin s 0`).  It serves as the C++ `double`. -/
inductive F64 where
  | nan : F64
  | inf (neg : Bool) : F64
  | fin (neg : Bool) (mag : ℚ) : F64
deriving DecidableEq, Repr

namespace F64

/-- Round the magnitude `q ≥ 0` with sign `neg` into format `f`; overflow gives
an infinity, underflow keeps the sign on zero. -/
def round (f : FloatFormat) (neg : Bool) (q : ℚ) : F64 :=
  let v := roundMag f q
  if pow2 f.emax ≤ v then inf neg else fin neg v

/-- The signed rational value of a finite datum. -/
def signed (neg : Bool) (mag : ℚ) : ℚ := if neg then -mag else mag

/-- Round a signed rational into format `f`; an exact zero takes sign `zneg`. -/
def ofRat (f : FloatFormat) (zneg : Bool) (q : ℚ) : F64 :=
  if q = 0 then fin zneg 0 else round f (decide (q < 0)) |q|

/-- Sign flip. -/
def neg : F64 → F64
  | nan => nan
  | inf s => inf (!s)
  | fin s a => fin (!s) a

/-- IEEE addition in format `f`. -/
def add (f : FloatFormat) : F64 → F64 → F64
  | nan, _ => nan
  | _, nan => nan
  | inf s, inf t => if s = t then inf s else nan
  | inf s, fin _ _ => inf s
  | fin _ _, inf t => inf t
  | fin s a, fin t b => ofRat f (s && t) (signed s a + signed t b)

/-- IEEE subtraction in format `f`. -/
def sub (f : FloatFormat) (x y : F64) : F64 := add f x (neg y)

/-- IEEE multiplication in format `f`. -/
def mul (f : FloatFormat) : F64 → F64 → F64
  | nan, _ => nan
  | _, nan => nan
  | inf s, inf t => inf (xor s t)
  | inf s, fin t b => if b = 0 then nan else inf (xor s t)
  | fin s a, inf t => if a = 0 then nan else inf (xor s t)
  | fin s a, fin t b => round f (xor s t) (a * b)

/-- IEEE division in format `f`; a finite nonzero value over zero is an infinity,
zero over zero is NaN, and nothing traps. -/
def div (f : FloatFormat) : F64 → F64 → F64
  | nan, _ => nan
  | _, nan => nan
  | inf _, inf _ => nan
  | inf s, fin t _ => inf (xor s t)
  | fin s _, inf t => fin (xor s t) 0
  | fin s a, fin t b =>
    if b = 0 then (if a = 0 then nan else inf (xor s t))
    else round f (xor s t) (a / b)

/-- Floating absolute value: clears the sign. -/
def abs : F64 → F64
  | nan => nan
  | inf _ => inf false
  | fin _ a => fin false a

/-- Conversion to another format (narrowing rounds, specials are kept). -/
def convert (f : FloatFormat) : F64 → F64
  | nan => nan
  | inf s => inf s
  | fin s a => round f s a

/-- Finite data. -/
def isFinite : F64 → Bool
  | fin _ _ => true
  | _ => false

/-- The rational value of a datum (`0` for NaN and infinities). -/
def toRat : F64 → ℚ
  | fin s a => signed s a
  | _ => 0

/-- Zeros of either sign. -/
def isZero : F64 → Bool
  | fin _ a => decide (a = 0)
  | _ => false

/-- Strictly positive data: `+∞` and finite values above zero. -/
def isPos : F64 → Bool
  | inf s => !s
  | fin s a => !s && decide (0 < a)
  | nan => false

/-- The IEEE comparison `<` (false as soon as one side is NaN). -/
def lt : F64 → F64 → Bool
  | nan, _ => false
  | _, nan => false
  | inf s, inf t => s && !t
  | inf s, fin _ _ => s
  | fin _ _, inf t => !t
  | fin s a, fin t b => decide (signed s a < signed t b)

/-- The IEEE comparison `<=` (false as soon as one side is NaN). -/
def le : F64 → F64 → Bool
  | nan, _ => false
  | _, nan => false
  | inf s, inf t => s || !t
  | inf s, fin _ _ => s
  | fin _ _, inf t => !t
  | fin s a, fin t b => decide (signed s a ≤ signed t b)

end F64

/-- The program with `using fptype=double;`: binary64 arithmetic, `long double`
literals rounded first to the extended format and then to binary64, and
`float(v)` rounding to binary32. -/
instance : FpType F64 where
  add := F64.add binary64
  sub := F64.sub binary64
  mul := F64.mul binary64
  div := F64.div binary64
  fabs := F64.abs
  ofLongDouble q := F64.convert binary64 (F64.ofRat x87ext false q)
  toFloat := F64.convert binary32

/-- Exact arithmetic, an idealisation and not the arithmetic of the compiled
program: no operation rounds and conversions are the identity.  It is used only
for statements that stipulate exact arithmetic. -/
instance exactFpType {α : Type} [LinearOrderedField α] : FpType α where
  add := (· + ·)
  sub := (· - ·)
  mul := (· * ·)
  div := (· / ·)
  fabs := fun a => |a|
  ofLongDouble q := (q : α)
  toFloat := id

/-! ## The program -/

section Program

variable {α : Type} [FpType α]

/-- The function under study: `return x*x;`. -/
def myf (x : α) : α := mul x x

/-- The closed-form derivative: `FACTOR*x` with `FACTOR = 2.0l`. -/
def myfp (x : α) : α :=
  let FACTOR : α := ofLongDouble 2.0
  mul FACTOR x

/-- The values `numder` sends to `cout`, in the order it prints them. -/
structure Printed (α : Type) where
  h : α
  x2 : α
  f2 : α
  f1 : α
  diff : α
  deriv_estimate : α
  actual_deriv : α
  relerror : α
deriving DecidableEq, Repr

/-- The body of `numder`: the printed values together with the returned `val`. -/
def numderRun (x h : α) : Printed α × α :=
  let x2 := add x h
  let f2 := myf x2
  let f1 := myf x
  let deriv_estimate := div (sub f2 f1) h
  let actual_deriv := myfp x
  let val := fabs (sub deriv_estimate (myfp x))
  let relerror := div (sub deriv_estimate (myfp x)) (myfp x)
  (⟨h, x2, f2, f1, sub f2 f1, deriv_estimate, actual_deriv, relerror⟩, val)

/-- The forward-difference estimator: the value `numder` returns. -/
def numder (x h : α) : α := (numderRun x h).2

/-- One pass through the loop body of `main`: the index, the step size passed to
`numder`, the value it returned, and the weight handed to `hist->Fill`. -/
structure Iter (α : Type) where
  i : Nat
  h : α
  delta : α
  fill : α
deriving DecidableEq, Repr

/-- The loop variables of `main` and the record of the passes made so far. -/
structure LoopState (α : Type) where
  i : Nat
  h : α
  log : List (Iter α)
deriving DecidableEq, Repr

/-- The loop body followed by `++i`. -/
def body (x DIVISOR : α) (s : LoopState α) : LoopState α :=
  let delta := numder x s.h
  { i := s.i + 1
    h := div s.h DIVISOR
    log := s.log ++ [⟨s.i, s.h, delta, toFloat delta⟩] }

/-- The loop `for (unsigned int i=1; i<=80; ++i)`, run for at most `fuel` passes. -/
def loop (x DIVISOR : α) : Nat → LoopState α → LoopState α
  | 0, s => s
  | fuel + 1, s => if s.i ≤ 80 then loop x DIVISOR fuel (body x DIVISOR s) else s

/-- The sweep of `main`, from its three constants. -/
def main (fuel : Nat) : LoopState α :=
  let DIVISOR : α := ofLongDouble 2.0
  let x : α := ofLongDouble 0.33333333333333333333
  let h : α := ofLongDouble 1.0
  loop x DIVISOR fuel ⟨1, h, []⟩

/-- The calls `hist->Fill(i, float(delta))` made by a run, in order. -/
def hist (s : LoopState α) : List (Nat × α) := s.log.map fun it => (it.i, it.fill)

/-! ## Closed form of the sweep -/

/-- The step size after `k` halvings: `h0` divided `k` times by `DIVISOR`. -/
def stepAt (DIVISOR h0 : α) : Nat → α
  | 0 => h0
  | k + 1 => div (stepAt DIVISOR h0 k) DIVISOR

/-- The record of the pass made `k` passes after the one with index `i0` and step
size `h0`. -/
def passAt (x DIVISOR : α) (i0 : Nat) (h0 : α) (k : Nat) : Iter α :=
  let h := stepAt DIVISOR h0 k
  ⟨i0 + k, h, numder x h, toFloat (numder x h)⟩

end Program

/-! ## Auxiliary lemmas -/

theorem natLog2_eq (n : Nat) : natLog2 n = Nat.log2 n := by
  have key : ∀ fuel n, n ≤ fuel → log2Fuel fuel n = Nat.log2 n := by
    intro fuel
    induction fuel with
    | zero =>
      intro n hn
      have h0 : n = 0 := by omega
      subst h0
      simp [log2Fuel, Nat.log2]
    | succ k ih =>
      intro n hn
      rw [log2Fuel, Nat.log2]
      by_cases h2 : n < 2
      · have h3 : ¬ 2 ≤ n := by omega
        simp [h2, h3]
      · have h3 : n ≥ 2 := by omega
        simp only [h2, h3, if_true, if_false]
        rw [ih (n / 2) (by omega)]
  exact key n n le_rfl

/-- Spot checks of the binary formats: the literal of `main` becomes the double
nearest to `1/3` (bit pattern `3FD5555555555555`); ties go to the even
significand; `2 ^ 1023 * 2` overflows to `+∞`; half of the least subnormal is
`+0`; `float(0.1)` is `13421773 / 2 ^ 27`. -/
theorem binary_format_checks :
    (ofLongDouble 0.33333333333333333333 : F64) =
      F64.fin false (6004799503160661 / 18014398509481984) ∧
    F64.add binary64 (.fin false 1) (.fin false (1 / 2 ^ 53)) = .fin false 1 ∧
    F64.add binary64 (.fin false 1) (.fin false (3 / 2 ^ 53)) = .fin false (1 + 1 / 2 ^ 51) ∧
    F64.mul binary64 (.fin false (2 ^ 1023)) (.fin false 2) = .inf false ∧
    F64.div binary64 (.fin false (1 / 2 ^ 1074)) (.fin false 2) = .fin false 0 ∧
    F64.sub binary64 (.fin false 1) (.fin false 1) = .fin false 0 ∧
    F64.convert binary32 (F64.convert binary64 (.fin false (1 / 10))) =
      .fin false (13421773 / 134217728) := by
  decide!

section LoopLemmas

variable {α : Type} [FpType α]

theorem stepAt_shift (D h0 : α) (k : Nat) :
    stepAt D (div h0 D) k = stepAt D h0 (k + 1) := by
  induction k with
  | zero => rfl
  | succ n ih => simp only [stepAt] at ih ⊢; rw [ih]

theorem passAt_shift (x D : α) (i0 : Nat) (h0 : α) (k : Nat) :
    passAt x D (i0 + 1) (div h0 D) k = passAt x D i0 h0 (k + 1) := by
  simp only [passAt, stepAt_shift]
  congr 1
  omega

/-- From any state with `i ≤ 81`, enough fuel runs the loop to its exit at
`i = 81`, making exactly `81 - i` further passes. -/
theorem loop_closed (x D : α) :
    ∀ (fuel : Nat) (s : LoopState α), s.i ≤ 81 → 81 - s.i ≤ fuel →
      loop x D fuel s =
        ⟨81, stepAt D s.h (81 - s.i),
          s.log ++ (List.range (81 - s.i)).map (passAt x D s.i s.h)⟩ := by
  intro fuel
  induction fuel with
  | zero =>
    intro s h1 h2
    have hi : s.i = 81 := by omega
    cases s with
    | mk i h log =>
      simp only at hi
      subst hi
      simp [loop, stepAt]
  | succ n ih =>
    intro s h1 h2
    cases s with
    | mk i h log =>
      simp only at h1 h2
      by_cases hi : i ≤ 80
      · have e : 81 - i = (80 - i) + 1 := by omega
        rw [loop, if_pos hi, ih _ (by simp only [body]; omega) (by simp only [body]; omega)]
        simp only [body]
        have e2 : 81 - (i + 1) = 80 - i := by omega
        have hm : List.map (passAt x D (i + 1) (div h D)) (List.range (80 - i)) =
            List.map (passAt x D i h ∘ Nat.succ) (List.range (80 - i)) :=
          List.map_congr_left fun k _ => passAt_shift x D i h k
        have h0 : (⟨i, h, numder x h, toFloat (numder x h)⟩ : Iter α) = passAt x D i h 0 := rfl
        rw [e2, e, stepAt_shift, List.range_succ_eq_map, List.map_cons, List.map_map, hm, h0,
          List.append_assoc, List.singleton_append]
      · have hi2 : i = 81 := by omega
        subst hi2
        simp [loop, stepAt]

/-- With at least 80 units of fuel the sweep is the list of its 80 passes. -/
theorem main_closed (fuel : Nat) (hf : 80 ≤ fuel) :
    (main fuel : LoopState α) =
      ⟨81, stepAt (ofLongDouble 2.0) (ofLongDouble 1.0 : α) 80,
        (List.range 80).map
          (passAt (ofLongDouble 0.33333333333333333333) (ofLongDouble 2.0) 1
            (ofLongDouble 1.0))⟩ := by
  have h := loop_closed (ofLongDouble 0.33333333333333333333 : α) (ofLongDouble 2.0) fuel
    ⟨1, ofLongDouble 1.0, []⟩ (by simp) (by simp only; omega)
  simpa [main] using h

/-- Fuel beyond 80 changes nothing. -/
theorem main_fuel (fuel : Nat) (hf : 80 ≤ fuel) :
    (main fuel : LoopState α) = main 80 := by
  rw [main_closed fuel hf, main_closed 80 le_rfl]

end LoopLemmas

section ExactLemmas

variable {α : Type} [LinearOrderedField α]

/-- In exact arithmetic the forward difference of `x ^ 2` is off by exactly `h`. -/
theorem numder_eq_abs (x h : α) (hh : h ≠ 0) : numder x h = |h| := by
  have hc : ((2.0 : ℚ) : α) = 2 := by norm_num
  have e2 : ((x + h) * (x + h) - x * x) / h - ((2.0 : ℚ) : α) * x = h := by
    rw [hc]
    field_simp
    ring
  show |((x + h) * (x + h) - x * x) / h - ((2.0 : ℚ) : α) * x| = |h|
  rw [e2]

theorem stepAt_exact (k : Nat) :
    stepAt (ofLongDouble 2.0 : α) (ofLongDouble 1.0) k = 1 / 2 ^ k := by
  induction k with
  | zero =>
    show ((1.0 : ℚ) : α) = 1 / 2 ^ 0
    norm_num
  | succ n ih =>
    show stepAt (ofLongDouble 2.0 : α) (ofLongDouble 1.0) n / ((2.0 : ℚ) : α) = 1 / 2 ^ (n + 1)
    rw [ih]
    have hc : ((2.0 : ℚ) : α) = 2 := by norm_num
    rw [hc, pow_succ]
    field_simp

theorem passAt_exact (x : α) (k : Nat) :
    passAt x (ofLongDouble 2.0) 1 (ofLongDouble 1.0) k =
      ⟨k + 1, 1 / 2 ^ k, 1 / 2 ^ k, 1 / 2 ^ k⟩ := by
  have hpos : (0 : α) < 1 / 2 ^ k := by positivity
  have hn : numder x (1 / 2 ^ k : α) = 1 / 2 ^ k := by
    rw [numder_eq_abs x _ (ne_of_gt hpos), abs_of_pos hpos]
  simp only [passAt, stepAt_exact, hn]
  rw [Nat.add_comm]
  rfl

end ExactLemmas

/-- Rounding a zero magnitude into binary64 gives the zero of the same sign. -/
theorem round_zero (s : Bool) : F64.round binary64 s 0 = F64.fin s 0 := by
  have h1 : roundMag binary64 0 = 0 := by decide!
  have h2 : ¬ pow2 binary64.emax ≤ 0 := by decide!
  simp [F64.round, h1, h2]

/-- In binary64 `myfp` maps each zero to itself. -/
theorem myfp_zero (s : Bool) : myfp (F64.fin s 0) = F64.fin s 0 := by
  have h2 : (ofLongDouble 2.0 : F64) = F64.fin false 2 := by decide!
  show FpType.mul (ofLongDouble 2.0 : F64) (F64.fin s 0) = F64.fin s 0
  rw [h2]
  show F64.mul binary64 (F64.fin false 2) (F64.fin s 0) = F64.fin s 0
  simp [F64.mul, round_zero]

/-- A quotient whose divisor is a zero is NaN or an infinity. -/
theorem div_zero_not_finite (f : FloatFormat) (a : F64) (s : Bool) :
    (F64.div f a (F64.fin s 0)).isFinite = false := by
  cases a with
  | nan => rfl
  | inf t => rfl
  | fin t q =>
    by_cases hq : q = 0
    · simp [F64.div, hq, F64.isFinite]
    · simp [F64.div, hq, F64.isFinite]

/-! ## The estimator -/

/-- C1: for every `x` and `h` (in particular every nonzero `h`), `numder`
computes the estimate `(myf (x + h) - myf x) / h`, takes `myfp x` as the true
derivative, a value that is the same for every step size, and returns
`|estimate - myfp x|`. -/
theorem numder_contract {α : Type} [FpType α] (x h : α) :
    (numderRun x h).1.deriv_estimate = div (sub (myf (add x h)) (myf x)) h ∧
    (numderRun x h).1.actual_deriv = myfp x ∧
    (∀ h2 : α, (numderRun x h2).1.actual_deriv = (numderRun x h).1.actual_deriv) ∧
    numder x h = fabs (sub (numderRun x h).1.deriv_estimate (myfp x)) :=
  ⟨rfl, rfl, fun _ => rfl, rfl⟩

/-- C2, amended: in exact arithmetic over the reals `myf x = x ^ 2`,
`myfp x = 2 * x`, and `myf` is differentiable at every `x` with derivative
`myfp x`; in the binary64 arithmetic of the program `myf` and `myfp` return
these values, for a finite argument of magnitude `a`, rounded once to binary64
(`a * a` and `2 * a`, an overflow giving an infinity). -/
theorem myf_myfp_exact :
    (∀ x : ℝ, myf x = x ^ 2) ∧ (∀ x : ℝ, myfp x = 2 * x) ∧
    (∀ x : ℝ, HasDerivAt (fun y : ℝ => myf y) (myfp x) x) ∧
    (∀ (s : Bool) (a : ℚ), myf (F64.fin s a) = F64.round binary64 false (a * a)) ∧
    (∀ (s : Bool) (a : ℚ), myfp (F64.fin s a) = F64.round binary64 s (2 * a)) := by
  have h1 : ∀ x : ℝ, myf x = x ^ 2 := fun x => by
    show x * x = x ^ 2
    ring
  have h2 : ∀ x : ℝ, myfp x = 2 * x := fun x => by
    show ((2.0 : ℚ) : ℝ) * x = 2 * x
    norm_num
  refine ⟨h1, h2, fun x => ?_, fun s a => ?_, fun s a => ?_⟩
  · have hf : (fun y : ℝ => myf y) = fun y => y ^ 2 := funext h1
    rw [hf, h2]
    simpa using hasDerivAt_pow 2 x
  · show F64.mul binary64 (F64.fin s a) (F64.fin s a) = _
    simp [F64.mul]
  · have hc : (ofLongDouble 2.0 : F64) = F64.fin false 2 := by decide!
    show FpType.mul (ofLongDouble 2.0 : F64) (F64.fin s a) = _
    rw [hc]
    show F64.mul binary64 (F64.fin false 2) (F64.fin s a) = _
    simp [F64.mul]

/-- C2 as stated fails in the binary64 arithmetic of the program: at the `x` of
`main` (the double `6004799503160661 / 2 ^ 54`) `myf x` is
`2001599834386887 / 2 ^ 54`, which is not the square of `x`; `myf` at `2 ^ 600`
and `myfp` at `2 ^ 1023` are `+∞`, not `2 ^ 1200` and `2 ^ 1024`. -/
theorem myf_binary64_not_square :
    (ofLongDouble 0.33333333333333333333 : F64) =
      F64.fin false (6004799503160661 / 18014398509481984) ∧
    myf (ofLongDouble 0.33333333333333333333 : F64) =
      F64.fin false (2001599834386887 / 18014398509481984) ∧
    (myf (ofLongDouble 0.33333333333333333333 : F64)).toRat ≠
      (ofLongDouble 0.33333333333333333333 : F64).toRat *
        (ofLongDouble 0.33333333333333333333 : F64).toRat ∧
    myf (F64.fin false (2 ^ 600)) = F64.inf false ∧
    myfp (F64.fin false (2 ^ 1023)) = F64.inf false := by
  decide!

/-- C9: in exact arithmetic, for every `x` and every nonzero `h`, the estimate
minus the true derivative is `h` itself, so `numder x h = |h|` whatever `x` is. -/
theorem numder_exact {α : Type} [LinearOrderedField α] (x h : α) (hh : h ≠ 0) :
    ((x + h) ^ 2 - x ^ 2) / h - 2 * x = h ∧
    sub (numderRun x h).1.deriv_estimate (myfp x) = h ∧
    numder x h = |h| := by
  have e : ((x + h) ^ 2 - x ^ 2) / h - 2 * x = h := by
    field_simp
    ring
  have e2 : ((x + h) * (x + h) - x * x) / h - ((2.0 : ℚ) : α) * x = h := by
    have hc : ((2.0 : ℚ) : α) = 2 := by norm_num
    rw [hc]
    field_simp
    ring
  refine ⟨e, e2, ?_⟩
  show |((x + h) * (x + h) - x * x) / h - ((2.0 : ℚ) : α) * x| = |h|
  rw [e2]

/-- Witness for C9 at `x = 1/3`, `h = 1/2` over the rationals. -/
theorem numder_exact_witness :
    (1 / 2 : ℚ) ≠ 0 ∧
    (((1 / 3 : ℚ) + 1 / 2) ^ 2 - (1 / 3) ^ 2) / (1 / 2) - 2 * (1 / 3) = 1 / 2 ∧
    sub (numderRun (1 / 3 : ℚ) (1 / 2)).1.deriv_estimate (myfp (1 / 3 : ℚ)) = 1 / 2 ∧
    numder (1 / 3 : ℚ) (1 / 2) = |1 / 2| :=
  ⟨by norm_num, numder_exact (1 / 3 : ℚ) (1 / 2) (by norm_num)⟩

/-- C8, amended: at `x = 0` (either zero) and any step `h`, binary64 `numder`
divides by `myfp 0 = 0` without a guard; nothing fails: the relative error is a
NaN or an infinity, which is only printed, and `numder` still returns the
absolute error. -/
theorem relerror_at_zero (s : Bool) (h : F64) :
    myfp (F64.fin s 0) = F64.fin s 0 ∧
    (numderRun (F64.fin s 0) h).1.relerror =
      div (sub (numderRun (F64.fin s 0) h).1.deriv_estimate (myfp (F64.fin s 0)))
        (myfp (F64.fin s 0)) ∧
    (numderRun (F64.fin s 0) h).1.relerror.isFinite = false ∧
    numder (F64.fin s 0) h =
      fabs (sub (numderRun (F64.fin s 0) h).1.deriv_estimate (myfp (F64.fin s 0))) := by
  refine ⟨myfp_zero s, rfl, ?_, rfl⟩
  show (F64.div binary64 _ (myfp (F64.fin s 0))).isFinite = false
  rw [myfp_zero]
  exact div_zero_not_finite _ _ _

/-- C8 as stated fails: at `x = 0`, `h = 1.0` the relative-error computation of
binary64 `numder` does yield a datum, `+∞`, and the call returns `1.0`. -/
theorem relerror_at_zero_yields_inf :
    (numderRun (F64.fin false 0) (ofLongDouble 1.0)).1.relerror = F64.inf false ∧
    numder (F64.fin false 0) (ofLongDouble 1.0) = F64.fin false 1 := by
  decide!

/-! ## The sweep -/

/-- C3, amended: with enough fuel the loop leaves only through its test, at
`i = 81`, after exactly 80 passes; the calls to `Fill` carry the indices
`1, 2, ..., 80` in this order, and the weight recorded at index `k + 1` is
`float(delta)`, the single-precision conversion of the value `numder` returned
for the step size in force (the start value divided `k` times by `DIVISOR`). -/
theorem sweep_records {α : Type} [FpType α] (fuel : Nat) (hf : 80 ≤ fuel) :
    (main fuel : LoopState α) = main 80 ∧
    (main fuel : LoopState α).i = 81 ∧
    (hist (main fuel : LoopState α)).length = 80 ∧
    (hist (main fuel : LoopState α)).map Prod.fst = List.range' 1 80 ∧
    (∀ it ∈ (main fuel : LoopState α).log,
      it.delta = numder (ofLongDouble 0.33333333333333333333) it.h ∧
      it.fill = toFloat it.delta) ∧
    ∀ k, k < 80 → (hist (main fuel : LoopState α))[k]? =
      some (k + 1, toFloat (numder (ofLongDouble 0.33333333333333333333)
        (stepAt (ofLongDouble 2.0) (ofLongDouble 1.0 : α) k))) := by
  refine ⟨main_fuel fuel hf, ?_⟩
  rw [main_closed fuel hf]
  refine ⟨rfl, by simp [hist], ?_, ?_, ?_⟩
  · simp only [hist, List.map_map]
    rw [List.range'_eq_map_range]
    apply List.map_congr_left
    intro k _
    simp [passAt]
  · intro it hit
    simp only [List.mem_map, List.mem_range] at hit
    obtain ⟨k, _, rfl⟩ := hit
    exact ⟨rfl, rfl⟩
  · intro k hk
    simp [hist, passAt, hk, Nat.add_comm]

/-- Witness for C3 (amended): the binary64 run with fuel 80. -/
theorem sweep_records_witness :
    80 ≤ 80 ∧
    ((main 80 : LoopState F64) = main 80 ∧
    (main 80 : LoopState F64).i = 81 ∧
    (hist (main 80 : LoopState F64)).length = 80 ∧
    (hist (main 80 : LoopState F64)).map Prod.fst = List.range' 1 80 ∧
    (∀ it ∈ (main 80 : LoopState F64).log,
      it.delta = numder (ofLongDouble 0.33333333333333333333) it.h ∧
      it.fill = toFloat it.delta) ∧
    ∀ k, k < 80 → (hist (main 80 : LoopState F64))[k]? =
      some (k + 1, toFloat (numder (ofLongDouble 0.33333333333333333333)
        (stepAt (ofLongDouble 2.0) (ofLongDouble 1.0 : F64) k)))) :=
  ⟨le_rfl, sweep_records 80 le_rfl⟩

/-- C3 as stated fails in binary64: at index 80 `numder` returns
`6004799503160661 / 2 ^ 53` (0.6666666666666666) while the recorded weight is
`11184811 / 2 ^ 24` (0.6666666865348816), so the recorded values are not the
returned absolute errors. -/
theorem sweep_records_not_delta :
    (main 80 : LoopState F64).log.getLast? =
      some ⟨80, .fin false (1 / 2 ^ 79), .fin false (6004799503160661 / 9007199254740992),
        .fin false (11184811 / 16777216)⟩ ∧
    ¬ ∀ it ∈ (main 80 : LoopState F64).log, it.fill = it.delta := by
  decide!

/-- C4: for any `fptype` the pass with index 1 uses the literal `1.0` as step
size and each of the passes 2 to 80 uses the previous step size divided by the
literal `2.0`; in binary64 these literals are exactly 1 and 2 and the step size
of pass `i` is exactly `1 / 2 ^ (i - 1)`. -/
theorem step_halving {α : Type} [FpType α] (fuel : Nat) (hf : 80 ≤ fuel) :
    ((main fuel : LoopState α).log.map fun it => it.i) = List.range' 1 80 ∧
    ((main fuel : LoopState α).log.map fun it => it.h)[0]? = some (ofLongDouble 1.0) ∧
    (∀ k, k < 79 → ∃ hk : α,
      ((main fuel : LoopState α).log.map fun it => it.h)[k]? = some hk ∧
      ((main fuel : LoopState α).log.map fun it => it.h)[k + 1]? =
        some (div hk (ofLongDouble 2.0))) ∧
    (ofLongDouble 1.0 : F64) = F64.fin false 1 ∧
    (ofLongDouble 2.0 : F64) = F64.fin false 2 ∧
    ∀ it ∈ (main fuel : LoopState F64).log, it.h = F64.fin false (1 / 2 ^ (it.i - 1)) := by
  refine ⟨?_, ?_, ?_, by decide!, by decide!, ?_⟩
  · rw [main_closed fuel hf]
    simp only [List.map_map]
    rw [List.range'_eq_map_range]
    apply List.map_congr_left
    intro k _
    simp [passAt]
  · rw [main_closed fuel hf]
    simp [passAt, stepAt]
  · intro k hk
    rw [main_closed fuel hf]
    refine ⟨stepAt (ofLongDouble 2.0) (ofLongDouble 1.0) k, ?_, ?_⟩
    · simp [passAt, show k < 80 by omega]
    · simp [passAt, stepAt, show k + 1 < 80 by omega]
  · rw [main_fuel fuel hf]
    decide!

/-- Witness for C4: the binary64 run with fuel 80. -/
theorem step_halving_witness :
    80 ≤ 80 ∧
    (((main 80 : LoopState F64).log.map fun it => it.i) = List.range' 1 80 ∧
    ((main 80 : LoopState F64).log.map fun it => it.h)[0]? = some (ofLongDouble 1.0) ∧
    (∀ k, k < 79 → ∃ hk : F64,
      ((main 80 : LoopState F64).log.map fun it => it.h)[k]? = some hk ∧
      ((main 80 : LoopState F64).log.map fun it => it.h)[k + 1]? =
        some (div hk (ofLongDouble 2.0))) ∧
    (ofLongDouble 1.0 : F64) = F64.fin false 1 ∧
    (ofLongDouble 2.0 : F64) = F64.fin false 2 ∧
    ∀ it ∈ (main 80 : LoopState F64).log, it.h = F64.fin false (1 / 2 ^ (it.i - 1))) :=
  ⟨le_rfl, step_halving 80 le_rfl⟩

/-- C5: in the binary64 run each of the 80 passes hands `numder` a finite,
strictly positive and hence nonzero step size `h`, which is the divisor that
`numder` uses. -/
theorem step_positive (fuel : Nat) (hf : 80 ≤ fuel) :
    (main fuel : LoopState F64).log.length = 80 ∧
    ∀ it ∈ (main fuel : LoopState F64).log,
      it.h.isFinite = true ∧ it.h.isPos = true ∧ it.h.isZero = false ∧
      (numderRun (ofLongDouble 0.33333333333333333333) it.h).1.h = it.h := by
  rw [main_fuel fuel hf]
  decide!

/-- Witness for C5: fuel 80. -/
theorem step_positive_witness :
    80 ≤ 80 ∧
    ((main 80 : LoopState F64).log.length = 80 ∧
    ∀ it ∈ (main 80 : LoopState F64).log,
      it.h.isFinite = true ∧ it.h.isPos = true ∧ it.h.isZero = false ∧
      (numderRun (ofLongDouble 0.33333333333333333333) it.h).1.h = it.h) :=
  ⟨le_rfl, step_positive 80 le_rfl⟩

/-- C6: in the binary64 run the least of the 80 recorded errors (it is the one
of pass 29) is strictly below the error of pass 1 and strictly below the error
of pass 80; this holds for the recorded single-precision weights and for the
values `numder` returned. -/
theorem error_curve_u_shaped (fuel : Nat) (hf : 80 ≤ fuel) :
    ∃ first last best : Iter F64,
      (main fuel : LoopState F64).log.head? = some first ∧
      (main fuel : LoopState F64).log.getLast? = some last ∧
      best ∈ (main fuel : LoopState F64).log ∧
      first.i = 1 ∧ last.i = 80 ∧
      (∀ it ∈ (main fuel : LoopState F64).log, F64.le best.fill it.fill = true) ∧
      F64.lt best.fill first.fill = true ∧ F64.lt best.fill last.fill = true ∧
      (∀ it ∈ (main fuel : LoopState F64).log, F64.le best.delta it.delta = true) ∧
      F64.lt best.delta first.delta = true ∧ F64.lt best.delta last.delta = true := by
  rw [main_fuel fuel hf]
  refine ⟨⟨1, .fin false 1, .fin false (9007199254740991 / 9007199254740992), .fin false 1⟩,
    ⟨80, .fin false (1 / 2 ^ 79), .fin false (6004799503160661 / 9007199254740992),
      .fin false (11184811 / 16777216)⟩,
    ⟨29, .fin false (1 / 2 ^ 28), .fin false (11184811 / 9007199254740992),
      .fin false (11184811 / 9007199254740992)⟩, ?_⟩
  decide!

/-- Witness for C6: fuel 80. -/
theorem error_curve_u_shaped_witness :
    80 ≤ 80 ∧
    ∃ first last best : Iter F64,
      (main 80 : LoopState F64).log.head? = some first ∧
      (main 80 : LoopState F64).log.getLast? = some last ∧
      best ∈ (main 80 : LoopState F64).log ∧
      first.i = 1 ∧ last.i = 80 ∧
      (∀ it ∈ (main 80 : LoopState F64).log, F64.le best.fill it.fill = true) ∧
      F64.lt best.fill first.fill = true ∧ F64.lt best.fill last.fill = true ∧
      (∀ it ∈ (main 80 : LoopState F64).log, F64.le best.delta it.delta = true) ∧
      F64.lt best.delta first.delta = true ∧ F64.lt best.delta last.delta = true :=
  ⟨le_rfl, error_curve_u_shaped 80 le_rfl⟩

/-- C7: pass 1 of the binary64 run (`x` the literal `0.33333333333333333333`,
`h = 1.0`): `numder` prints `f(x)`, `f(x+h)`, the estimate and the true
derivative within a relative `2 ^ -52` (the printed `DBL_EPSILON`) of `1/9`,
`16/9`, `5/3` and `2/3`, and returns `1 - 2 ^ -53`, within `2 ^ -52` of `1.0`;
the recorded weight is exactly `1.0`. -/
theorem step_one_values :
    numderRun (ofLongDouble 0.33333333333333333333 : F64) (ofLongDouble 1.0) =
      (⟨.fin false 1,
        .fin false (6004799503160661 / 4503599627370496),
        .fin false (2001599834386887 / 1125899906842624),
        .fin false (2001599834386887 / 18014398509481984),
        .fin false (3752999689475413 / 2251799813685248),
        .fin false (3752999689475413 / 2251799813685248),
        .fin false (6004799503160661 / 9007199254740992),
        .fin false (3 / 2)⟩,
       .fin false (9007199254740991 / 9007199254740992)) ∧
    |(numderRun (ofLongDouble 0.33333333333333333333 : F64) (ofLongDouble 1.0)).1.f1.toRat
      - 1 / 9| ≤ 1 / 9 * (1 / 2 ^ 52) ∧
    |(numderRun (ofLongDouble 0.33333333333333333333 : F64) (ofLongDouble 1.0)).1.f2.toRat
      - 16 / 9| ≤ 16 / 9 * (1 / 2 ^ 52) ∧
    |(numderRun (ofLongDouble 0.33333333333333333333 : F64)
      (ofLongDouble 1.0)).1.deriv_estimate.toRat - 5 / 3| ≤ 5 / 3 * (1 / 2 ^ 52) ∧
    |(numderRun (ofLongDouble 0.33333333333333333333 : F64)
      (ofLongDouble 1.0)).1.actual_deriv.toRat - 2 / 3| ≤ 2 / 3 * (1 / 2 ^ 52) ∧
    |(numder (ofLongDouble 0.33333333333333333333 : F64) (ofLongDouble 1.0)).toRat - 1|
      ≤ 1 / 2 ^ 52 ∧
    (main 80 : LoopState F64).log.head? =
      some ⟨1, .fin false 1, .fin false (9007199254740991 / 9007199254740992), .fin false 1⟩ := by
  decide!

/-- C10: in exact arithmetic pass `i` (for `1 ≤ i ≤ 80`) uses the step size
`1 / 2 ^ (i - 1)` and records the error `1 / 2 ^ (i - 1)`; the recorded series
is strictly decreasing along increasing indices and nowhere below its value
`1 / 2 ^ 79` at pass 80. -/
theorem sweep_exact {α : Type} [LinearOrderedField α] (fuel : Nat) (hf : 80 ≤ fuel) :
    (main fuel : LoopState α).log =
      (List.range 80).map (fun k => (⟨k + 1, 1 / 2 ^ k, 1 / 2 ^ k, 1 / 2 ^ k⟩ : Iter α)) ∧
    (∀ i, 1 ≤ i → i ≤ 80 → (main fuel : LoopState α).log[i - 1]? =
      some ⟨i, 1 / 2 ^ (i - 1), 1 / 2 ^ (i - 1), 1 / 2 ^ (i - 1)⟩) ∧
    List.Pairwise (fun a b : Iter α => a.i < b.i ∧ b.fill < a.fill)
      (main fuel : LoopState α).log ∧
    ∀ it ∈ (main fuel : LoopState α).log, (1 / 2 ^ 79 : α) ≤ it.fill := by
  have hlog : (main fuel : LoopState α).log =
      (List.range 80).map (fun k => (⟨k + 1, 1 / 2 ^ k, 1 / 2 ^ k, 1 / 2 ^ k⟩ : Iter α)) := by
    rw [main_closed fuel hf]
    exact List.map_congr_left fun k _ => passAt_exact _ k
  refine ⟨hlog, ?_, ?_, ?_⟩
  · intro i h1 h2
    rw [hlog]
    have hi : i - 1 < 80 := by omega
    have hi2 : i - 1 + 1 = i := by omega
    simp [hi, hi2]
  · rw [hlog, List.pairwise_map]
    refine (List.pairwise_lt_range 80).imp ?_
    intro a b hab
    exact ⟨by simpa using hab, one_div_pow_lt_one_div_pow_of_lt (by norm_num) hab⟩
  · intro it hit
    rw [hlog] at hit
    simp only [List.mem_map, List.mem_range] at hit
    obtain ⟨k, hk, rfl⟩ := hit
    exact one_div_pow_le_one_div_pow_of_le (by norm_num) (by omega)

/-- Witness for C10: the rational run with fuel 80. -/
theorem sweep_exact_witness :
    80 ≤ 80 ∧
    ((main 80 : LoopState ℚ).log =
      (List.range 80).map (fun k => (⟨k + 1, 1 / 2 ^ k, 1 / 2 ^ k, 1 / 2 ^ k⟩ : Iter ℚ)) ∧
    (∀ i, 1 ≤ i → i ≤ 80 → (main 80 : LoopState ℚ).log[i - 1]? =
      some ⟨i, 1 / 2 ^ (i - 1), 1 / 2 ^ (i - 1), 1 / 2 ^ (i - 1)⟩) ∧
    List.Pairwise (fun a b : Iter ℚ => a.i < b.i ∧ b.fill < a.fill)
      (main 80 : LoopState ℚ).log ∧
    ∀ it ∈ (main 80 : LoopState ℚ).log, (1 / 2 ^ 79 : ℚ) ≤ it.fill) :=
  ⟨le_rfl, sweep_exact 80 le_rfl⟩

end RoundOff
